import Mathlib

/-!
# Verification of the request de-duplication coordinator (`src/http.ts`)

This file embeds the `HttpClient` class of `src/http.ts` into Lean:

* `Value` models the JavaScript values that can appear in a request's
  `params`/`data`/`headers` fields (JSON values plus `undefined`; numbers are
  modelled on the integral fragment, which is all the claims depend on).
* `stringifyV` models `JSON.stringify` on such values: no added whitespace,
  object fields in insertion order, `undefined`-valued object fields dropped,
  `undefined` array elements rendered as `null`, strings escaped exactly as
  `JSON.stringify` escapes them.  `stringifyV` returns `none` on a bare
  `undefined`, as `JSON.stringify(undefined)` returns `undefined`.
* `RequestConfig` models the `RequestConfig` interface (the fields the class
  reads, plus representative pass-through fields `headers`/`timeout` and the
  `signal` slot that `request` fills in).
* `getRequestId` models `HttpClient.getRequestId` (lines 29–32).
* `CState`, `dispatchStart`, `settle`, `cancelAllPendingRequests` model the
  stateful part of the class: the `pendingRequests` map (JS `Map` = assoc
  list in insertion order, keys unique), `AbortController` allocation
  (controllers are numbered by a counter; `aborted` records the controllers
  whose `abort()` was called), the synchronous prefix of `request`
  (lines 44–60), its settlement continuation (lines 62–84) and
  `cancelAllPendingRequests` (lines 35–40).
* `getCfg`/`postCfg`/`putCfg`/`deleteCfg` model the configs the convenience
  wrappers (lines 88–105) build and pass to `request`.
-/

namespace HttpTs

/-- JavaScript values as they matter to `JSON.stringify`: the JSON values
plus `undefined`.  Numbers are modelled as integers (the claims under
verification do not depend on non-integral number formatting).  JS strings
and object keys are modelled as `List Char`. -/
inductive Value where
  | vundef : Value
  | vnull : Value
  | vbool : Bool → Value
  | vnum : Int → Value
  | vstr : List Char → Value
  | varr : List Value → Value
  | vobj : List (List Char × Value) → Value

mutual

/-- Structural equality test on `Value` (the derive handler does not support
this nested inductive, so it is written out). -/
def beqV : Value → Value → Bool
  | .vundef, .vundef => true
  | .vnull, .vnull => true
  | .vbool x, .vbool y => x == y
  | .vnum x, .vnum y => x == y
  | .vstr x, .vstr y => x == y
  | .varr xs, .varr ys => beqL xs ys
  | .vobj fs, .vobj gs => beqF fs gs
  | _, _ => false

def beqL : List Value → List Value → Bool
  | [], [] => true
  | x :: xs, y :: ys => beqV x y && beqL xs ys
  | _, _ => false

def beqF : List (List Char × Value) → List (List Char × Value) → Bool
  | [], [] => true
  | (k, v) :: fs, (l, w) :: gs => k == l && beqV v w && beqF fs gs
  | _, _ => false

end

mutual

theorem eq_of_beqV : ∀ {a b : Value}, beqV a b = true → a = b
  | .vundef, .vundef, _ => rfl
  | .vnull, .vnull, _ => rfl
  | .vbool _, .vbool _, h => by
    simp only [beqV, beq_iff_eq] at h; rw [h]
  | .vnum _, .vnum _, h => by
    simp only [beqV, beq_iff_eq] at h; rw [h]
  | .vstr _, .vstr _, h => by
    simp only [beqV, beq_iff_eq] at h; rw [h]
  | .varr _, .varr _, h => by
    simp only [beqV] at h; rw [eq_of_beqL h]
  | .vobj _, .vobj _, h => by
    simp only [beqV] at h; rw [eq_of_beqF h]

theorem eq_of_beqL : ∀ {a b : List Value}, beqL a b = true → a = b
  | [], [], _ => rfl
  | _ :: _, _ :: _, h => by
    simp only [beqL, Bool.and_eq_true] at h
    rw [eq_of_beqV h.1, eq_of_beqL h.2]

theorem eq_of_beqF :
    ∀ {a b : List (List Char × Value)}, beqF a b = true → a = b
  | [], [], _ => rfl
  | (_, _) :: _, (_, _) :: _, h => by
    simp only [beqF, Bool.and_eq_true, beq_iff_eq] at h
    rw [h.1.1, eq_of_beqV h.1.2, eq_of_beqF h.2]

end

mutual

theorem beqV_refl : ∀ a : Value, beqV a a = true
  | .vundef => rfl
  | .vnull => rfl
  | .vbool _ => by simp [beqV]
  | .vnum _ => by simp [beqV]
  | .vstr _ => by simp [beqV]
  | .varr xs => by simp only [beqV]; exact beqL_refl xs
  | .vobj fs => by simp only [beqV]; exact beqF_refl fs

theorem beqL_refl : ∀ a : List Value, beqL a a = true
  | [] => rfl
  | x :: xs => by
    simp only [beqL, Bool.and_eq_true]
    exact ⟨beqV_refl x, beqL_refl xs⟩

theorem beqF_refl : ∀ a : List (List Char × Value), beqF a a = true
  | [] => rfl
  | (k, v) :: fs => by
    simp [beqF, beqV_refl v, beqF_refl fs]

end

instance : DecidableEq Value := fun a b =>
  decidable_of_iff (beqV a b = true) ⟨eq_of_beqV, fun h => h ▸ beqV_refl a⟩

/-- Hex digit character for `n % 16`, lowercase, as `JSON.stringify` emits in
`\u00XX` escapes. -/
def hexCh (n : Nat) : Char :=
  if n < 10 then Char.ofNat (48 + n) else Char.ofNat (97 + (n - 10))

/-- One character of a JS string, escaped as `JSON.stringify` escapes it:
`"` and `\` get a backslash, the five named control escapes are used for
backspace, tab, newline, form feed and carriage return, all other control
characters become `\u00XX`, and every other character is emitted as is. -/
def escCh (c : Char) : List Char :=
  if c = '"' then ['\\', '"']
  else if c = '\\' then ['\\', '\\']
  else if c = Char.ofNat 8 then ['\\', 'b']
  else if c = Char.ofNat 9 then ['\\', 't']
  else if c = Char.ofNat 10 then ['\\', 'n']
  else if c = Char.ofNat 12 then ['\\', 'f']
  else if c = Char.ofNat 13 then ['\\', 'r']
  else if c.toNat < 32 then
    ['\\', 'u', '0', '0', hexCh (c.toNat / 16), hexCh (c.toNat % 16)]
  else [c]

/-- A JS string rendered as a JSON string literal: quote, escaped body, quote. -/
def strLit (s : List Char) : List Char :=
  '"' :: (s.flatMap escCh ++ ['"'])

/-- Decimal digit characters of a natural number, most significant first. -/
def natChars (n : Nat) : List Char :=
  if h : n < 10 then [Char.ofNat (48 + n)]
  else natChars (n / 10) ++ [Char.ofNat (48 + n % 10)]
decreasing_by exact Nat.div_lt_self (by omega) (by omega)

/-- Decimal rendering of an integer: optional minus sign, then digits. -/
def intChars (i : Int) : List Char :=
  if i < 0 then '-' :: natChars i.natAbs else natChars i.natAbs

/-- The comma-prefixed tail of a comma-joined chunk list. -/
def joinSep : List (List Char) → List Char
  | [] => []
  | x :: xs => ',' :: (x ++ joinSep xs)

/-- Comma-join a list of already-rendered chunks. -/
def joinC : List (List Char) → List Char
  | [] => []
  | x :: xs => x ++ joinSep xs

mutual

/-- `JSON.stringify` on a `Value`, producing the character list of the
resulting JSON text, or `none` for a bare `undefined` (on which
`JSON.stringify` returns `undefined`, not a string). -/
def stringifyV : Value → Option (List Char)
  | .vundef => none
  | .vnull => some ('n' :: 'u' :: 'l' :: 'l' :: [])
  | .vbool true => some ('t' :: 'r' :: 'u' :: 'e' :: [])
  | .vbool false => some ('f' :: 'a' :: 'l' :: 's' :: 'e' :: [])
  | .vnum i => some (intChars i)
  | .vstr s => some (strLit s)
  | .varr xs => some ('[' :: (joinC (stringifyItems xs) ++ [']']))
  | .vobj fs => some ('{' :: (joinC (stringifyFields fs) ++ ['}']))

/-- Array elements: an `undefined` element is rendered as `null`. -/
def stringifyItems : List Value → List (List Char)
  | [] => []
  | x :: xs =>
    (match stringifyV x with
     | none => 'n' :: 'u' :: 'l' :: 'l' :: []
     | some s => s) :: stringifyItems xs

/-- Object members: a member whose value is `undefined` is dropped. -/
def stringifyFields : List (List Char × Value) → List (List Char)
  | [] => []
  | (k, v) :: fs =>
    match stringifyV v with
    | none => stringifyFields fs
    | some s => (strLit k ++ ':' :: s) :: stringifyFields fs

end

/-- The `RequestConfig` interface: the fields `HttpClient` reads (`method`,
`url`, `params`, `data`), representative pass-through transport options
(`headers`, `timeout`), and the `signal` slot that `request` fills before
calling `axios`.  Absent optional fields are `none` / `Value.vundef`. -/
structure RequestConfig where
  method : Option (List Char) := none
  url : Option (List Char) := none
  params : Value := .vundef
  data : Value := .vundef
  headers : Value := .vundef
  timeout : Option Int := none
  signal : Option Nat := none
deriving DecidableEq

/-- The members of the JS object `{ method, url, params, data }` that
`getRequestId` stringifies: all four keys, in declaration order, with
`undefined` for absent fields (which `JSON.stringify` then drops). -/
def fpList (c : RequestConfig) : List (List Char × Value) :=
  [("method".toList, (c.method.map Value.vstr).getD .vundef),
   ("url".toList, (c.url.map Value.vstr).getD .vundef),
   ("params".toList, c.params),
   ("data".toList, c.data)]

/-- The four fingerprint fields of a config as the JS object
`{ method, url, params, data }`. -/
def fingerprintObj (c : RequestConfig) : Value :=
  .vobj (fpList c)

/-- `HttpClient.getRequestId` (src/http.ts lines 29–32):
`JSON.stringify({ method, url, params, data })`.  The argument is an object
literal, so the stringification is always a string. -/
def getRequestId (c : RequestConfig) : List Char :=
  (stringifyV (fingerprintObj c)).getD []

/-! ## The `pendingRequests` map and the request lifecycle

A JS `Map` is an insertion-ordered association list with unique keys.
`AbortController` allocation is modelled by numbering controllers with a
counter; `CState.aborted` records the controllers on which `abort()` has
been called. -/

/-- `Map.get` / `Map.has` on the insertion-ordered association list. -/
def mapGet (m : List (List Char × Nat)) (k : List Char) : Option Nat :=
  match m with
  | [] => none
  | (k', v) :: rest => if k' = k then some v else mapGet rest k

/-- `Map.delete`: removes the entry with the given key, if present. -/
def mapDelete (m : List (List Char × Nat)) (k : List Char) :
    List (List Char × Nat) :=
  m.filter (fun kv => kv.1 ≠ k)

/-- `Map.set`: overwrites the entry with the given key in place if one is
present, else appends a new entry at the end. -/
def mapSet (m : List (List Char × Nat)) (k : List Char) (v : Nat) :
    List (List Char × Nat) :=
  match m with
  | [] => [(k, v)]
  | (k', w) :: rest =>
    if k' = k then (k, v) :: rest else (k', w) :: mapSet rest k v

/-- The mutable state of an `HttpClient` instance, together with the
ambient `AbortController` bookkeeping: `table` is `pendingRequests`,
`aborted` the set of controllers whose `abort()` has been called, and
`nextId` the allocator for fresh controllers. -/
structure CState where
  table : List (List Char × Nat) := []
  aborted : List Nat := []
  nextId : Nat := 0
deriving DecidableEq

/-- The synchronous prefix of `HttpClient.request` (src/http.ts lines
44–60), which runs with no suspension point: compute the request id; if an
entry with that id exists, abort its controller and delete the entry;
create a fresh controller and register it under the id.  Returns the new
state and the id of the controller created for this dispatch. -/
def dispatchStart (s : CState) (cfg : RequestConfig) : CState × Nat :=
  let requestId := getRequestId cfg
  let s1 :=
    match mapGet s.table requestId with
    | some cid =>
      { s with aborted := s.aborted ++ [cid],
               table := mapDelete s.table requestId }
    | none => s
  let cid := s1.nextId
  ({ s1 with table := mapSet s1.table requestId cid, nextId := cid + 1 }, cid)

/-- The `{ code, message, data }` envelope of `ResponseData`. -/
structure RespData where
  code : Int
  message : List Char
  data : Value
deriving DecidableEq

/-- The error object a failed transport call rejects with: its `name` and
its optional `isCanceled` property (absent on errors the transport
produces; `request` adds it). -/
structure ErrInfo where
  name : List Char
  isCanceled : Option Bool := none
deriving DecidableEq

/-- How the awaited `axios` call settles: with a response, or with an
error object. -/
inductive Outcome where
  | success : RespData → Outcome
  | failure : ErrInfo → Outcome

/-- The error the transport produces when the supplied cancellation signal
fires: the abort error, named `AbortError`, with no `isCanceled` property. -/
def abortErr : ErrInfo := { name := "AbortError".toList }

/-- The settlement continuation of `HttpClient.request` (src/http.ts lines
62–84), run when the awaited `axios` call settles for the dispatch that
registered `requestId`: on success, delete the table entry for the id and
return the payload; on failure, set `isCanceled` when the error is named
`AbortError`, delete the table entry for the id, and rethrow.  The delete
is keyed on the id alone — it does not check which controller the entry
currently holds. -/
def settle (s : CState) (requestId : List Char) (o : Outcome) :
    CState × Except ErrInfo RespData :=
  match o with
  | .success resp =>
    ({ s with table := mapDelete s.table requestId }, .ok resp)
  | .failure err =>
    let err' :=
      if err.name = "AbortError".toList then { err with isCanceled := some true }
      else err
    ({ s with table := mapDelete s.table requestId }, .error err')

/-- `HttpClient.cancelAllPendingRequests` (src/http.ts lines 35–40): the
`forEach` loop aborts every controller in the map and deletes every entry,
leaving the table empty. -/
def cancelAllPendingRequests (s : CState) : CState :=
  { s with aborted := s.aborted ++ s.table.map (fun kv => kv.2),
           table := [] }

/-- States reachable from a fresh `HttpClient` by any interleaving of
dispatch prefixes, settlements and `cancelAllPendingRequests` calls. -/
inductive Reachable : CState → Prop
  | init : Reachable {}
  | dispatch {s} (cfg : RequestConfig) :
      Reachable s → Reachable (dispatchStart s cfg).1
  | settled {s} (requestId : List Char) (o : Outcome) :
      Reachable s → Reachable (settle s requestId o).1
  | cancelAll {s} :
      Reachable s → Reachable (cancelAllPendingRequests s)

/-! ## The convenience wrappers (src/http.ts lines 88–105)

Each wrapper builds `{ ...config, method: M, url }` (plus `data` for
`post`/`put`) and hands it to `request`; the explicit fields are written
after the spread, so they override anything in `config`.  An absent
`config` argument spreads to nothing, i.e. behaves as the default config. -/

/-- The config `get(url, config?)` passes to `request`. -/
def getCfg (url : List Char) (cfg : Option RequestConfig) : RequestConfig :=
  { cfg.getD {} with method := some "GET".toList, url := some url }

/-- The config `post(url, data?, config?)` passes to `request`. -/
def postCfg (url : List Char) (data : Value) (cfg : Option RequestConfig) :
    RequestConfig :=
  { cfg.getD {} with method := some "POST".toList, url := some url,
                     data := data }

/-- The config `put(url, data?, config?)` passes to `request`. -/
def putCfg (url : List Char) (data : Value) (cfg : Option RequestConfig) :
    RequestConfig :=
  { cfg.getD {} with method := some "PUT".toList, url := some url,
                     data := data }

/-- The config `delete(url, config?)` passes to `request`. -/
def deleteCfg (url : List Char) (cfg : Option RequestConfig) : RequestConfig :=
  { cfg.getD {} with method := some "DELETE".toList, url := some url }

/-- The argument `request` passes to `axios` (src/http.ts lines 63–66):
`{ ...config, signal }` — every config field forwarded unchanged, with the
new controller's signal filled in. -/
def axiosArg (cfg : RequestConfig) (cid : Nat) : RequestConfig :=
  { cfg with signal := some cid }

/-! ## A JSON reader

The reader below is proof apparatus, not part of the embedded program: it
inverts `stringifyV` on `undefined`-free values, which establishes that the
serialization — and hence the fingerprint — is injective on such values. -/

/-- Decimal digit test. -/
def isDig (c : Char) : Bool := 48 ≤ c.toNat && c.toNat ≤ 57

/-- Value of a decimal digit character. -/
def digVal (c : Char) : Nat := c.toNat - 48

/-- Split a leading run of decimal digits off the input. -/
def readDigits : List Char → List Char × List Char
  | [] => ([], [])
  | c :: r =>
    if isDig c then
      let p := readDigits r
      (c :: p.1, p.2)
    else ([], c :: r)

/-- The number a digit run denotes. -/
def digitsNum (ds : List Char) : Nat :=
  ds.foldl (fun a c => a * 10 + digVal c) 0

/-- Value of a lowercase hexadecimal digit character, as `hexCh` emits. -/
def hexNum (c : Char) : Option Nat :=
  if 48 ≤ c.toNat && c.toNat ≤ 57 then some (c.toNat - 48)
  else if 97 ≤ c.toNat && c.toNat ≤ 102 then some (c.toNat - 87)
  else none

/-- Inverse of the two-character escapes of `escCh`. -/
def unescCh (c : Char) : Option Char :=
  if c = '"' then some '"'
  else if c = '\\' then some '\\'
  else if c = 'b' then some (Char.ofNat 8)
  else if c = 't' then some (Char.ofNat 9)
  else if c = 'n' then some (Char.ofNat 10)
  else if c = 'f' then some (Char.ofNat 12)
  else if c = 'r' then some (Char.ofNat 13)
  else none

/-- Read the body of a string literal after its opening quote, undoing
`escCh`, up to the closing quote; returns the decoded characters and the
input after the closing quote. -/
def readStr (cs : List Char) : Option (List Char × List Char) :=
  match cs with
  | [] => none
  | c :: r =>
    if c = '"' then some ([], r)
    else if c = '\\' then
      match r with
      | 'u' :: a :: b :: x :: y :: t =>
        match hexNum a, hexNum b, hexNum x, hexNum y with
        | some va, some vb, some vx, some vy =>
          match readStr t with
          | some p => some (Char.ofNat (((va * 16 + vb) * 16 + vx) * 16 + vy) :: p.1, p.2)
          | none => none
        | _, _, _, _ => none
      | e :: t =>
        match unescCh e with
        | some ch =>
          match readStr t with
          | some p => some (ch :: p.1, p.2)
          | none => none
        | none => none
      | [] => none
    else
      match readStr r with
      | some p => some (c :: p.1, p.2)
      | none => none
termination_by cs.length
decreasing_by all_goals simp_wf <;> omega

mutual

/-- Read one JSON value (fuelled; fuel bounds the nesting structure). -/
def readV : Nat → List Char → Option (Value × List Char)
  | 0, _ => none
  | _ + 1, [] => none
  | f + 1, c :: r =>
    if c = 'n' then
      match r with
      | 'u' :: 'l' :: 'l' :: t => some (.vnull, t)
      | _ => none
    else if c = 't' then
      match r with
      | 'r' :: 'u' :: 'e' :: t => some (.vbool true, t)
      | _ => none
    else if c = 'f' then
      match r with
      | 'a' :: 'l' :: 's' :: 'e' :: t => some (.vbool false, t)
      | _ => none
    else if c = '"' then
      match readStr r with
      | some p => some (.vstr p.1, p.2)
      | none => none
    else if c = '[' then
      match r with
      | ']' :: t => some (.varr [], t)
      | _ =>
        match readItems f r with
        | some p => some (.varr p.1, p.2)
        | none => none
    else if c = '{' then
      match r with
      | '}' :: t => some (.vobj [], t)
      | _ =>
        match readFields f r with
        | some p => some (.vobj p.1, p.2)
        | none => none
    else if c = '-' then
      match readDigits r with
      | ([], _) => none
      | (ds, t) => some (.vnum (-(digitsNum ds : Int)), t)
    else if isDig c then
      match readDigits r with
      | (ds, t) => some (.vnum ((digitsNum (c :: ds) : Nat) : Int), t)
    else none

/-- Read one-or-more comma-separated array elements up to the closing
bracket (the empty array is handled in `readV`). -/
def readItems : Nat → List Char → Option (List Value × List Char)
  | 0, _ => none
  | f + 1, cs =>
    match readV f cs with
    | some (v, r) =>
      match r with
      | ',' :: r2 =>
        (match readItems f r2 with
         | some p => some (v :: p.1, p.2)
         | none => none)
      | ']' :: r2 => some ([v], r2)
      | _ => none
    | none => none

/-- Read one-or-more comma-separated object members up to the closing
brace (the empty object is handled in `readV`). -/
def readFields : Nat → List Char → Option (List (List Char × Value) × List Char)
  | 0, _ => none
  | f + 1, cs =>
    match cs with
    | '"' :: r =>
      match readStr r with
      | some (k, r1) =>
        match r1 with
        | ':' :: r2 =>
          match readV f r2 with
          | some (v, r3) =>
            match r3 with
            | ',' :: r4 =>
              (match readFields f r4 with
               | some p => some ((k, v) :: p.1, p.2)
               | none => none)
            | '}' :: r4 => some ([(k, v)], r4)
            | _ => none
          | none => none
        | _ => none
      | none => none
    | _ => none

end

mutual

/-- No `undefined` occurs anywhere inside the value. -/
def undefFree : Value → Bool
  | .vundef => false
  | .vnull => true
  | .vbool _ => true
  | .vnum _ => true
  | .vstr _ => true
  | .varr xs => undefFreeL xs
  | .vobj fs => undefFreeF fs

def undefFreeL : List Value → Bool
  | [] => true
  | x :: xs => undefFree x && undefFreeL xs

def undefFreeF : List (List Char × Value) → Bool
  | [] => true
  | (_, v) :: fs => undefFree v && undefFreeF fs

end

mutual

/-- Node count, used as the reader's fuel bound. -/
def vsize : Value → Nat
  | .varr xs => 1 + vsizeL xs
  | .vobj fs => 1 + vsizeF fs
  | _ => 1

def vsizeL : List Value → Nat
  | [] => 0
  | x :: xs => 1 + vsize x + vsizeL xs

def vsizeF : List (List Char × Value) → Nat
  | [] => 0
  | (_, v) :: fs => 1 + vsize v + vsizeF fs

end

/-- The remainder after a rendered number may not begin with a digit
(every JSON delimiter and the end of input qualify). -/
def numStop : List Char → Bool
  | [] => true
  | c :: _ => !isDig c

/-- A field value as it may occur in a clean fingerprint: either absent
(`undefined` at the top) or free of `undefined` throughout. -/
def presentClean : Value → Bool
  | .vundef => true
  | v => undefFree v

/-- The members `JSON.stringify` keeps: those whose value is not
`undefined`. -/
def keepF (kv : List Char × Value) : Bool :=
  match kv.2 with
  | .vundef => false
  | _ => true

/-! ## Lemmas about the map operations -/

theorem mapGet_mapDelete_self (m : List (List Char × Nat)) (k : List Char) :
    mapGet (mapDelete m k) k = none := by
  induction m with
  | nil => rfl
  | cons kv rest ih =>
    obtain ⟨k', v⟩ := kv
    by_cases h : k' = k
    · simpa [mapDelete, List.filter_cons, h] using ih
    · simpa [mapDelete, List.filter_cons, mapGet, h] using ih

theorem mapGet_mapDelete_ne (m : List (List Char × Nat)) {k k' : List Char}
    (h : k' ≠ k) : mapGet (mapDelete m k) k' = mapGet m k' := by
  induction m with
  | nil => rfl
  | cons kv rest ih =>
    obtain ⟨k'', v⟩ := kv
    by_cases hk : k'' = k
    · subst hk
      have h2 : ¬(k'' = k') := fun e => h e.symm
      simpa [mapDelete, List.filter_cons, mapGet, h2] using ih
    · by_cases hk' : k'' = k'
      · subst hk'
        simp [mapDelete, List.filter_cons, hk, mapGet]
      · simpa [mapDelete, List.filter_cons, hk, mapGet, hk'] using ih

theorem mapGet_mapSet_self (m : List (List Char × Nat)) (k : List Char) (v : Nat) :
    mapGet (mapSet m k v) k = some v := by
  induction m with
  | nil => simp [mapSet, mapGet]
  | cons kv rest ih =>
    obtain ⟨k', w⟩ := kv
    by_cases hk : k' = k
    · subst hk
      simp [mapSet, mapGet]
    · simpa [mapSet, mapGet, hk] using ih

theorem mapGet_mapSet_ne (m : List (List Char × Nat)) {k k' : List Char}
    (v : Nat) (h : k' ≠ k) : mapGet (mapSet m k v) k' = mapGet m k' := by
  have h2 : ¬(k = k') := fun e => h e.symm
  induction m with
  | nil => simp [mapSet, mapGet, h2]
  | cons kv rest ih =>
    obtain ⟨k'', w⟩ := kv
    by_cases hk : k'' = k
    · subst hk
      have h3 : ¬(k'' = k') := h2
      simp [mapSet, mapGet, h3]
    · by_cases hk' : k'' = k'
      · subst hk'
        simp [mapSet, mapGet, hk]
      · simpa [mapSet, mapGet, hk, hk'] using ih

theorem mem_keys_mapSet (m : List (List Char × Nat)) (k a : List Char) (v : Nat) :
    a ∈ (mapSet m k v).map Prod.fst ↔ a ∈ m.map Prod.fst ∨ a = k := by
  induction m with
  | nil => simp [mapSet]
  | cons kv rest ih =>
    obtain ⟨k', w⟩ := kv
    by_cases hk : k' = k
    · subst hk
      simp [mapSet]
      tauto
    · simp only [mapSet, if_neg hk, List.map_cons, List.mem_cons, ih]
      tauto

theorem mapGet_eq_none_iff (m : List (List Char × Nat)) (k : List Char) :
    mapGet m k = none ↔ k ∉ m.map Prod.fst := by
  induction m with
  | nil => simp [mapGet]
  | cons kv rest ih =>
    obtain ⟨k', v⟩ := kv
    by_cases hk : k' = k
    · subst hk
      simp [mapGet]
    · have h2 : ¬(k = k') := fun e => hk e.symm
      simp [mapGet, hk, ih, h2]

theorem nodup_keys_mapDelete {m : List (List Char × Nat)} (k : List Char)
    (h : (m.map Prod.fst).Nodup) : ((mapDelete m k).map Prod.fst).Nodup :=
  h.sublist (List.Sublist.map Prod.fst (List.filter_sublist m))

theorem nodup_keys_mapSet {m : List (List Char × Nat)} (k : List Char) (v : Nat)
    (h : (m.map Prod.fst).Nodup) : ((mapSet m k v).map Prod.fst).Nodup := by
  induction m with
  | nil => simp [mapSet]
  | cons kv rest ih =>
    obtain ⟨k', w⟩ := kv
    simp only [List.map_cons, List.nodup_cons] at h
    by_cases hk : k' = k
    · subst hk
      simpa [mapSet, List.nodup_cons] using h
    · simp only [mapSet, if_neg hk, List.map_cons, List.nodup_cons]
      refine ⟨fun hmem => ?_, ih h.2⟩
      rcases (mem_keys_mapSet rest k k' v).mp hmem with hin | heq
      · exact h.1 hin
      · exact hk heq

/-! ## Digits and numbers round-trip -/

theorem isDig_digCh {k : Nat} (h : k < 10) : isDig (Char.ofNat (48 + k)) = true := by
  interval_cases k <;> decide

theorem digVal_digCh {k : Nat} (h : k < 10) : digVal (Char.ofNat (48 + k)) = k := by
  interval_cases k <;> decide

theorem natChars_unfold (n : Nat) :
    natChars n = (if n < 10 then [] else natChars (n / 10))
      ++ [Char.ofNat (48 + n % 10)] := by
  by_cases h : n < 10
  · rw [natChars]
    simp [h, Nat.mod_eq_of_lt h]
  · rw [natChars]
    simp [h]

theorem natChars_all_digits (n : Nat) : ∀ c ∈ natChars n, isDig c = true := by
  induction n using Nat.strongRecOn with
  | _ n ih =>
    rw [natChars_unfold]
    intro c hc
    rcases List.mem_append.mp hc with hl | hr
    · by_cases h : n < 10
      · simp [h] at hl
      · exact ih (n / 10) (Nat.div_lt_self (by omega) (by omega)) c (by simpa [h] using hl)
    · rw [List.mem_singleton] at hr
      subst hr
      exact isDig_digCh (Nat.mod_lt _ (by omega))

theorem natChars_ne_nil (n : Nat) : natChars n ≠ [] := by
  rw [natChars_unfold]
  simp

theorem natChars_cons (n : Nat) :
    ∃ c t, natChars n = c :: t ∧ isDig c = true := by
  cases h : natChars n with
  | nil => exact absurd h (natChars_ne_nil n)
  | cons c t =>
    exact ⟨c, t, rfl, natChars_all_digits n c (h ▸ List.mem_cons_self c t)⟩

theorem digitsNum_natChars (n : Nat) : digitsNum (natChars n) = n := by
  induction n using Nat.strongRecOn with
  | _ n ih =>
    rw [natChars_unfold]
    by_cases h : n < 10
    · simp only [if_pos h, List.nil_append]
      simp [digitsNum, digVal_digCh (Nat.mod_lt _ (by omega : 0 < 10))]
      omega
    · simp only [if_neg h]
      simp only [digitsNum, List.foldl_append, List.foldl_cons, List.foldl_nil]
      have := ih (n / 10) (Nat.div_lt_self (by omega) (by omega))
      simp only [digitsNum] at this
      rw [this, digVal_digCh (Nat.mod_lt _ (by omega : 0 < 10))]
      omega

theorem readDigits_stop {r : List Char} (h : numStop r = true) :
    readDigits r = ([], r) := by
  cases r with
  | nil => rfl
  | cons c t =>
    simp only [numStop, Bool.not_eq_true'] at h
    simp [readDigits, h]

theorem readDigits_run (ds : List Char) (h : ∀ c ∈ ds, isDig c = true)
    {r : List Char} (hr : numStop r = true) : readDigits (ds ++ r) = (ds, r) := by
  induction ds with
  | nil => simpa using readDigits_stop hr
  | cons c t ih =>
    have hc : isDig c = true := h c (List.mem_cons_self c t)
    have ht := ih (fun x hx => h x (List.mem_cons_of_mem c hx))
    simp [readDigits, hc, ht]

theorem isDig_ne {c : Char} (h : isDig c = true) :
    c ≠ 'n' ∧ c ≠ 't' ∧ c ≠ 'f' ∧ c ≠ '"' ∧ c ≠ '[' ∧ c ≠ '{' ∧ c ≠ '-' := by
  refine ⟨?_, ?_, ?_, ?_, ?_, ?_, ?_⟩ <;>
    exact fun e => by rw [e] at h; exact absurd h (by decide)

/-- Parsing a rendered integer: the number branch of `readV` inverts
`intChars` whenever the remainder cannot extend the digit run. -/
theorem readV_intChars (f : Nat) (i : Int) (r : List Char)
    (hr : numStop r = true) :
    readV (f + 1) (intChars i ++ r) = some (.vnum i, r) := by
  by_cases hi : i < 0
  · have hic : intChars i = '-' :: natChars i.natAbs := by
      simp [intChars, hi]
    obtain ⟨c, t, hct, hc⟩ := natChars_cons i.natAbs
    rw [hic]
    simp only [List.cons_append, readV]
    rw [if_neg (by decide), if_neg (by decide), if_neg (by decide),
        if_neg (by decide), if_neg (by decide), if_neg (by decide),
        if_pos trivial, readDigits_run _ (natChars_all_digits _) hr, hct]
    have hv : -((digitsNum (c :: t) : Nat) : Int) = i := by
      rw [← hct, digitsNum_natChars]
      omega
    simp [hv]
  · have hic : intChars i = natChars i.natAbs := by
      simp [intChars, hi]
    obtain ⟨c, t, hct, hc⟩ := natChars_cons i.natAbs
    obtain ⟨hn, ht, hf2, hq, hbk, hbc, hm⟩ := isDig_ne hc
    have htd : ∀ x ∈ t, isDig x = true := fun x hx =>
      natChars_all_digits _ x (hct ▸ List.mem_cons_of_mem c hx)
    rw [hic, hct]
    simp only [List.cons_append, readV]
    rw [if_neg hn, if_neg ht, if_neg hf2, if_neg hq, if_neg hbk, if_neg hbc,
        if_neg hm, if_pos hc, readDigits_run t htd hr]
    have hv : ((digitsNum (c :: t) : Nat) : Int) = i := by
      rw [← hct, digitsNum_natChars]
      omega
    simp [hv]

/-! ## String literals round-trip -/

theorem hexNum_hexCh {k : Nat} (h : k < 16) : hexNum (hexCh k) = some k := by
  interval_cases k <;> decide

/-- Reading one escaped character undoes `escCh`. -/
theorem readStr_escCh (c : Char) (t : List Char) :
    readStr (escCh c ++ t)
      = match readStr t with
        | some p => some (c :: p.1, p.2)
        | none => none := by
  by_cases h1 : c = '"'
  · subst h1
    rw [show escCh '"' ++ t = '\\' :: '"' :: t from rfl, readStr.eq_def]
    rfl
  by_cases h2 : c = '\\'
  · subst h2
    rw [show escCh '\\' ++ t = '\\' :: '\\' :: t from rfl, readStr.eq_def]
    rfl
  by_cases h3 : c = Char.ofNat 8
  · subst h3
    rw [show escCh (Char.ofNat 8) ++ t = '\\' :: 'b' :: t from rfl, readStr.eq_def]
    rfl
  by_cases h4 : c = Char.ofNat 9
  · subst h4
    rw [show escCh (Char.ofNat 9) ++ t = '\\' :: 't' :: t from rfl, readStr.eq_def]
    rfl
  by_cases h5 : c = Char.ofNat 10
  · subst h5
    rw [show escCh (Char.ofNat 10) ++ t = '\\' :: 'n' :: t from rfl, readStr.eq_def]
    rfl
  by_cases h6 : c = Char.ofNat 12
  · subst h6
    rw [show escCh (Char.ofNat 12) ++ t = '\\' :: 'f' :: t from rfl, readStr.eq_def]
    rfl
  by_cases h7 : c = Char.ofNat 13
  · subst h7
    rw [show escCh (Char.ofNat 13) ++ t = '\\' :: 'r' :: t from rfl, readStr.eq_def]
    rfl
  by_cases h8 : c.toNat < 32
  · have hesc : escCh c
        = ['\\', 'u', '0', '0', hexCh (c.toNat / 16), hexCh (c.toNat % 16)] := by
      simp only [escCh, if_neg h1, if_neg h2, if_neg h3, if_neg h4, if_neg h5,
        if_neg h6, if_neg h7, if_pos h8]
    have hx : hexNum (hexCh (c.toNat / 16)) = some (c.toNat / 16) :=
      hexNum_hexCh (by omega)
    have hy : hexNum (hexCh (c.toNat % 16)) = some (c.toNat % 16) :=
      hexNum_hexCh (by omega)
    have hz : hexNum '0' = some 0 := by decide
    rw [hesc, List.cons_append, readStr.eq_def]
    simp only [List.cons_append, hx, hy, hz]
    have harith : ((0 * 16 + 0) * 16 + c.toNat / 16) * 16 + c.toNat % 16
        = c.toNat := by omega
    rw [harith, Char.ofNat_toNat]
    simp only [List.nil_append]
    rw [if_neg (show ¬('\\' = '"') by decide), if_pos trivial]
  · have hesc : escCh c = [c] := by
      simp only [escCh, if_neg h1, if_neg h2, if_neg h3, if_neg h4, if_neg h5,
        if_neg h6, if_neg h7, if_neg h8]
    rw [hesc, List.cons_append, List.nil_append, readStr.eq_def]
    simp only [if_neg h1, if_neg h2]

/-- Reading a rendered string body recovers the string and stops at the
closing quote. -/
theorem readStr_flatMap (s : List Char) : ∀ t : List Char,
    readStr (s.flatMap escCh ++ '"' :: t) = some (s, t) := by
  induction s with
  | nil =>
    intro t
    rw [List.flatMap_nil, List.nil_append, readStr.eq_def]
    rfl
  | cons c cs ih =>
    intro t
    rw [List.flatMap_cons, List.append_assoc, readStr_escCh, ih]

/-! ## Round-trip of whole values -/

theorem stringify_none_iff (v : Value) : stringifyV v = none ↔ v = .vundef := by
  cases v with
  | vundef => simp [stringifyV]
  | vnull => simp [stringifyV]
  | vbool b => cases b <;> simp [stringifyV]
  | vnum i => simp [stringifyV]
  | vstr s => simp [stringifyV]
  | varr xs => simp [stringifyV]
  | vobj fs => simp [stringifyV]

theorem stringify_total {v : Value} (h : undefFree v = true) :
    ∃ s, stringifyV v = some s := by
  cases hv : stringifyV v with
  | some s => exact ⟨s, rfl⟩
  | none =>
    rw [stringify_none_iff] at hv
    subst hv
    simp [undefFree] at h

theorem vsize_pos (v : Value) : 1 ≤ vsize v := by
  cases v with
  | varr xs => simp only [vsize]; omega
  | vobj fs => simp only [vsize]; omega
  | vundef => simp [vsize]
  | vnull => simp [vsize]
  | vbool b => simp [vsize]
  | vnum i => simp [vsize]
  | vstr s => simp [vsize]

theorem isDig_ne_delim {c : Char} (h : isDig c = true) : c ≠ ']' ∧ c ≠ '}' :=
  ⟨fun e => by rw [e] at h; exact absurd h (by decide),
   fun e => by rw [e] at h; exact absurd h (by decide)⟩

/-- A rendered value never begins with a closing delimiter. -/
theorem stringify_head {v : Value} {s : List Char} (h : stringifyV v = some s) :
    ∃ c t, s = c :: t ∧ c ≠ ']' ∧ c ≠ '}' := by
  cases v with
  | vundef => simp [stringifyV] at h
  | vnull =>
    injection h with h
    exact ⟨'n', _, h.symm, by decide, by decide⟩
  | vbool b =>
    cases b <;> injection h with h
    · exact ⟨'f', _, h.symm, by decide, by decide⟩
    · exact ⟨'t', _, h.symm, by decide, by decide⟩
  | vnum i =>
    injection h with h
    by_cases hi : i < 0
    · refine ⟨'-', natChars i.natAbs, ?_, by decide, by decide⟩
      rw [← h]
      simp [intChars, hi]
    · obtain ⟨c, t, hct, hc⟩ := natChars_cons i.natAbs
      obtain ⟨h1, h2⟩ := isDig_ne_delim hc
      refine ⟨c, t, ?_, h1, h2⟩
      rw [← h]
      simp [intChars, hi, hct]
  | vstr str =>
    injection h with h
    exact ⟨'"', _, h.symm, by decide, by decide⟩
  | varr xs =>
    injection h with h
    exact ⟨'[', _, h.symm, by decide, by decide⟩
  | vobj fs =>
    injection h with h
    exact ⟨'{', _, h.symm, by decide, by decide⟩

/-- Reduction of `readV`'s array branch when the element list is not
immediately closed. -/
theorem readV_arr_nonempty (f : Nat) (c : Char) (rest : List Char)
    (h : c ≠ ']') :
    readV (f + 1) ('[' :: c :: rest)
      = match readItems f (c :: rest) with
        | some p => some (.varr p.1, p.2)
        | none => none := by
  simp only [readV]
  rw [if_neg (by decide), if_neg (by decide), if_neg (by decide),
      if_neg (by decide), if_pos trivial]
  split
  · rename_i t heq
    injection heq with h1 h2
    exact absurd h1 h
  · rfl

/-- Reduction of `readV`'s object branch when the member list is not
immediately closed. -/
theorem readV_obj_nonempty (f : Nat) (c : Char) (rest : List Char)
    (h : c ≠ '}') :
    readV (f + 1) ('{' :: c :: rest)
      = match readFields f (c :: rest) with
        | some p => some (.vobj p.1, p.2)
        | none => none := by
  simp only [readV]
  rw [if_neg (by decide), if_neg (by decide), if_neg (by decide),
      if_neg (by decide), if_neg (by decide), if_pos trivial]
  split
  · rename_i t heq
    injection heq with h1 h2
    exact absurd h1 h
  · rfl

theorem numStop_joinSep (L : List (List Char)) (c : Char) (r : List Char)
    (hc : isDig c = false) : numStop (joinSep L ++ c :: r) = true := by
  cases L with
  | nil => simp [joinSep, numStop, hc]
  | cons a L =>
    simp [joinSep, numStop]
    decide

mutual

/-- The reader inverts the serializer on `undefined`-free values. -/
theorem readV_stringify : ∀ (f : Nat) (v : Value) (s r : List Char),
    undefFree v = true → stringifyV v = some s → vsize v ≤ f →
    numStop r = true → readV f (s ++ r) = some (v, r)
  | 0, v, _, _, _, _, hf, _ => absurd hf (by have := vsize_pos v; omega)
  | f + 1, v, s, r, hu, hs, hf, hr => by
    cases v with
    | vundef => simp [undefFree] at hu
    | vnull =>
      injection hs with hs
      subst hs
      simp only [List.cons_append, List.nil_append]
      simp only [readV]
      rfl
    | vbool b =>
      cases b <;> injection hs with hs <;> subst hs <;>
        simp only [List.cons_append, List.nil_append] <;>
        simp only [readV] <;> rfl
    | vnum i =>
      injection hs with hs
      subst hs
      exact readV_intChars f i r hr
    | vstr str =>
      injection hs with hs
      subst hs
      have hsh : strLit str ++ r = '"' :: (str.flatMap escCh ++ '"' :: r) := by
        simp [strLit]
      rw [hsh]
      simp only [readV]
      rw [if_neg (by decide), if_neg (by decide), if_neg (by decide),
          if_pos (by trivial), readStr_flatMap]
    | varr xs =>
      injection hs with hs
      subst hs
      cases xs with
      | nil =>
        have hsh : ('[' :: (joinC (stringifyItems []) ++ [']'])) ++ r
            = '[' :: ']' :: r := by
          simp [stringifyItems, joinC]
        rw [hsh]
        simp only [readV]
        rfl
      | cons x xs' =>
        have hu2 : undefFree x = true ∧ undefFreeL xs' = true := by
          simpa [undefFree, undefFreeL] using hu
        obtain ⟨sx, hsx⟩ := stringify_total hu2.1
        obtain ⟨c, t0, hct, hcb, _⟩ := stringify_head hsx
        have hitems : stringifyItems (x :: xs') = sx :: stringifyItems xs' := by
          simp [stringifyItems, hsx]
        have hsh : ('[' :: (joinC (stringifyItems (x :: xs')) ++ [']'])) ++ r
            = '[' :: (c :: (t0 ++ (joinSep (stringifyItems xs') ++ ']' :: r))) := by
          simp [hitems, joinC, hct, List.append_assoc]
        rw [hsh, readV_arr_nonempty f c _ hcb]
        have hback : (c :: (t0 ++ (joinSep (stringifyItems xs') ++ ']' :: r)))
            = joinC (stringifyItems (x :: xs')) ++ ']' :: r := by
          simp [hitems, joinC, hct, List.append_assoc]
        rw [hback, readItems_stringify f x xs' r (by simpa [undefFree] using hu)
          (by simp only [vsize] at hf; omega)]
    | vobj fs =>
      injection hs with hs
      subst hs
      cases fs with
      | nil =>
        have hsh : ('{' :: (joinC (stringifyFields []) ++ ['}'])) ++ r
            = '{' :: '}' :: r := by
          simp [stringifyFields, joinC]
        rw [hsh]
        simp only [readV]
        rfl
      | cons kv fs' =>
        obtain ⟨k, v⟩ := kv
        have hu2 : undefFree v = true ∧ undefFreeF fs' = true := by
          simpa [undefFree, undefFreeF] using hu
        obtain ⟨sv, hsv⟩ := stringify_total hu2.1
        have hflds : stringifyFields ((k, v) :: fs')
            = (strLit k ++ ':' :: sv) :: stringifyFields fs' := by
          simp [stringifyFields, hsv]
        have hsh : ('{' :: (joinC (stringifyFields ((k, v) :: fs')) ++ ['}'])) ++ r
            = '{' :: ('"' :: (k.flatMap escCh
                ++ '"' :: ':' :: (sv ++ (joinSep (stringifyFields fs') ++ '}' :: r)))) := by
          simp [hflds, joinC, strLit, List.append_assoc]
        rw [hsh, readV_obj_nonempty f '"' _ (by decide)]
        have hback : ('"' :: (k.flatMap escCh
              ++ '"' :: ':' :: (sv ++ (joinSep (stringifyFields fs') ++ '}' :: r))))
            = joinC (stringifyFields ((k, v) :: fs')) ++ '}' :: r := by
          simp [hflds, joinC, strLit, List.append_assoc]
        rw [hback, readFields_stringify f k v fs' r (by simpa [undefFree] using hu)
          (by simp only [vsize] at hf; omega)]

/-- The reader's element loop inverts the serializer's element list. -/
theorem readItems_stringify : ∀ (f : Nat) (x : Value) (xs : List Value)
    (r : List Char), undefFreeL (x :: xs) = true → vsizeL (x :: xs) ≤ f →
    readItems f (joinC (stringifyItems (x :: xs)) ++ ']' :: r) = some (x :: xs, r)
  | 0, x, xs, _, _, hf => absurd hf (by simp only [vsizeL]; omega)
  | f + 1, x, xs, r, hu, hf => by
    have hu2 : undefFree x = true ∧ undefFreeL xs = true := by
      simpa [undefFreeL] using hu
    obtain ⟨sx, hsx⟩ := stringify_total hu2.1
    have hitems : stringifyItems (x :: xs) = sx :: stringifyItems xs := by
      simp [stringifyItems, hsx]
    have hsh : joinC (stringifyItems (x :: xs)) ++ ']' :: r
        = sx ++ (joinSep (stringifyItems xs) ++ ']' :: r) := by
      simp [hitems, joinC, List.append_assoc]
    simp only [readItems]
    rw [hsh, readV_stringify f x sx _ hu2.1 hsx
      (by simp only [vsizeL] at hf; omega)
      (numStop_joinSep _ ']' r (by decide))]
    dsimp only
    cases xs with
    | nil =>
      have hend : joinSep (stringifyItems ([] : List Value)) ++ ']' :: r
          = ']' :: r := by
        simp [stringifyItems, joinSep]
      rw [hend]
      rfl
    | cons y ys =>
      have hu3 : undefFree y = true := by
        have := hu2.2
        simp only [undefFreeL, Bool.and_eq_true] at this
        exact this.1
      obtain ⟨sy, hsy⟩ := stringify_total hu3
      have hitems2 : stringifyItems (y :: ys) = sy :: stringifyItems ys := by
        simp [stringifyItems, hsy]
      have hmid : joinSep (stringifyItems (y :: ys)) ++ ']' :: r
          = ',' :: (joinC (stringifyItems (y :: ys)) ++ ']' :: r) := by
        rw [hitems2]
        simp [joinSep, joinC, List.append_assoc]
      rw [hmid]
      simp only []
      rw [readItems_stringify f y ys r hu2.2
        (by simp only [vsizeL] at hf ⊢; omega)]

/-- The reader's member loop inverts the serializer's member list. -/
theorem readFields_stringify : ∀ (f : Nat) (k : List Char) (v : Value)
    (fs : List (List Char × Value)) (r : List Char),
    undefFreeF ((k, v) :: fs) = true → vsizeF ((k, v) :: fs) ≤ f →
    readFields f (joinC (stringifyFields ((k, v) :: fs)) ++ '}' :: r)
      = some ((k, v) :: fs, r)
  | 0, k, v, fs, _, _, hf => absurd hf (by simp only [vsizeF]; omega)
  | f + 1, k, v, fs, r, hu, hf => by
    have hu2 : undefFree v = true ∧ undefFreeF fs = true := by
      simpa [undefFreeF] using hu
    obtain ⟨sv, hsv⟩ := stringify_total hu2.1
    have hflds : stringifyFields ((k, v) :: fs)
        = (strLit k ++ ':' :: sv) :: stringifyFields fs := by
      simp [stringifyFields, hsv]
    have hsh : joinC (stringifyFields ((k, v) :: fs)) ++ '}' :: r
        = '"' :: (k.flatMap escCh
            ++ '"' :: ':' :: (sv ++ (joinSep (stringifyFields fs) ++ '}' :: r))) := by
      simp [hflds, joinC, strLit, List.append_assoc]
    rw [hsh]
    simp only [readFields]
    rw [readStr_flatMap]
    simp only []
    rw [readV_stringify f v sv _ hu2.1 hsv
      (by simp only [vsizeF] at hf; omega)
      (numStop_joinSep _ '}' r (by decide))]
    simp only []
    cases fs with
    | nil =>
      have hend : joinSep (stringifyFields ([] : List (List Char × Value)))
          ++ '}' :: r = '}' :: r := by
        simp [stringifyFields, joinSep]
      rw [hend]
      rfl
    | cons kv2 fs2 =>
      obtain ⟨k2, v2⟩ := kv2
      have hu3 : undefFree v2 = true := by
        have := hu2.2
        simp only [undefFreeF, Bool.and_eq_true] at this
        exact this.1
      obtain ⟨sv2, hsv2⟩ := stringify_total hu3
      have hflds2 : stringifyFields ((k2, v2) :: fs2)
          = (strLit k2 ++ ':' :: sv2) :: stringifyFields fs2 := by
        simp [stringifyFields, hsv2]
      have hmid : joinSep (stringifyFields ((k2, v2) :: fs2)) ++ '}' :: r
          = ',' :: (joinC (stringifyFields ((k2, v2) :: fs2)) ++ '}' :: r) := by
        rw [hflds2]
        simp [joinSep, joinC, List.append_assoc]
      rw [hmid]
      simp only []
      rw [readFields_stringify f k2 v2 fs2 r hu2.2
        (by simp only [vsizeF] at hf ⊢; omega)]

end

/-! ## Injectivity of the serialization on clean values -/

/-- `stringifyV` is injective on `undefined`-free values: reading the one
serialization back yields both values. -/
theorem stringify_inj {v1 v2 : Value} (h1 : undefFree v1 = true)
    (h2 : undefFree v2 = true) (h : stringifyV v1 = stringifyV v2) :
    v1 = v2 := by
  obtain ⟨s1, hs1⟩ := stringify_total h1
  obtain ⟨s2, hs2⟩ := stringify_total h2
  have hss : s1 = s2 := by
    rw [hs1, hs2] at h
    injection h
  subst hss
  have r1 := readV_stringify (max (vsize v1) (vsize v2)) v1 s1 [] h1 hs1
    (le_max_left _ _) rfl
  have r2 := readV_stringify (max (vsize v1) (vsize v2)) v2 s1 [] h2 hs2
    (le_max_right _ _) rfl
  rw [r1] at r2
  injection r2 with r2
  exact congrArg Prod.fst r2

theorem keepF_false_iff (kv : List Char × Value) :
    keepF kv = false ↔ kv.2 = .vundef := by
  obtain ⟨k, v⟩ := kv
  cases v <;> simp [keepF]

/-- Dropping `undefined`-valued members before serializing changes
nothing — the serializer drops them itself. -/
theorem stringifyFields_filter (l : List (List Char × Value)) :
    stringifyFields l = stringifyFields (l.filter keepF) := by
  induction l with
  | nil => rfl
  | cons kv t ih =>
    obtain ⟨k, v⟩ := kv
    cases hv : stringifyV v with
    | none =>
      have hveq : v = .vundef := (stringify_none_iff v).mp hv
      have hk : keepF (k, v) = false := (keepF_false_iff (k, v)).mpr hveq
      simp only [stringifyFields, hv, List.filter_cons, hk, Bool.false_eq_true,
        if_false]
      exact ih
    | some s =>
      have hvne : v ≠ .vundef := fun e => by
        rw [(stringify_none_iff v).mpr e] at hv
        exact Option.noConfusion hv
      have hk : keepF (k, v) = true := by
        cases hkf : keepF (k, v) with
        | true => rfl
        | false => exact absurd ((keepF_false_iff (k, v)).mp hkf) hvne
      simp only [List.filter_cons, hk, if_true]
      simp only [stringifyFields, hv]
      rw [ih]

theorem stringify_vobj_filter (l : List (List Char × Value)) :
    stringifyV (.vobj l) = stringifyV (.vobj (l.filter keepF)) := by
  simp only [stringifyV]
  rw [stringifyFields_filter]

/-- A member list whose values are all clean is `undefined`-free once the
`undefined`-valued members are dropped. -/
theorem undefFreeF_filter (l : List (List Char × Value))
    (h : ∀ kv ∈ l, presentClean kv.2 = true) :
    undefFreeF (l.filter keepF) = true := by
  induction l with
  | nil => rfl
  | cons kv t ih =>
    obtain ⟨k, v⟩ := kv
    have hx := h (k, v) (List.mem_cons_self _ _)
    have ht := ih (fun kv hkv => h kv (List.mem_cons_of_mem _ hkv))
    cases hkf : keepF (k, v) with
    | false =>
      simp only [List.filter_cons, hkf, Bool.false_eq_true, if_false]
      exact ht
    | true =>
      have hvne : v ≠ .vundef := fun e => by
        rw [(keepF_false_iff (k, v)).mpr e] at hkf
        exact Bool.noConfusion hkf
      have hvf : undefFree v = true := by
        cases v with
        | vundef => exact absurd rfl hvne
        | vnull => rfl
        | vbool b => rfl
        | vnum i => rfl
        | vstr s => rfl
        | varr xs => simpa [presentClean] using hx
        | vobj fs => simpa [presentClean] using hx
      simp only [List.filter_cons, hkf, if_true, undefFreeF, Bool.and_eq_true]
      exact ⟨hvf, ht⟩

theorem lookup_none_of_keys (l : List (List Char × Value)) (k : List Char)
    (h : ∀ kv ∈ l, kv.1 ≠ k) : List.lookup k l = none := by
  induction l with
  | nil => rfl
  | cons kv t ih =>
    obtain ⟨a, b⟩ := kv
    have ha : a ≠ k := h (a, b) (List.mem_cons_self _ _)
    have hb : (k == a) = false := by
      rw [beq_eq_false_iff_ne]
      exact fun e => ha e.symm
    simp only [List.lookup, hb]
    exact ih (fun kv hkv => h kv (List.mem_cons_of_mem _ hkv))

/-- Every value of the fingerprint object is clean when `params` and
`data` are. -/
theorem fpList_clean (c : RequestConfig) (hp : presentClean c.params = true)
    (hd : presentClean c.data = true) :
    ∀ kv ∈ fpList c, presentClean kv.2 = true := by
  intro kv hkv
  simp only [fpList, List.mem_cons, List.not_mem_nil, or_false] at hkv
  rcases hkv with h | h | h | h <;> subst h
  · cases c.method with
    | none => rfl
    | some s => rfl
  · cases c.url with
    | none => rfl
    | some s => rfl
  · exact hp
  · exact hd

theorem stringify_fingerprintObj (c : RequestConfig) :
    stringifyV (fingerprintObj c) = some (getRequestId c) := by
  simp [fingerprintObj, getRequestId, stringifyV]

/-- Looking a key up after the `undefined`-valued members are dropped,
when keys are unique: the key's own value survives iff it is not
`undefined`. -/
theorem lookup_filter (k : List Char) (l : List (List Char × Value))
    (hn : (l.map Prod.fst).Nodup) :
    List.lookup k (l.filter keepF)
      = match List.lookup k l with
        | some v => if v = .vundef then none else some v
        | none => none := by
  induction l with
  | nil => rfl
  | cons kv t ih =>
    obtain ⟨a, v⟩ := kv
    simp only [List.map_cons, List.nodup_cons] at hn
    cases hak : ((k == a) : Bool) with
    | true =>
      have hka : k = a := eq_of_beq hak
      cases hkf : keepF (a, v) with
      | true =>
        have hvne : v ≠ .vundef := fun e => by
          rw [(keepF_false_iff (a, v)).mpr e] at hkf
          exact Bool.noConfusion hkf
        simp only [List.filter_cons, hkf, if_true, List.lookup, hak,
          if_neg hvne]
      | false =>
        have hveq : v = .vundef := (keepF_false_iff (a, v)).mp hkf
        simp only [List.filter_cons, hkf, Bool.false_eq_true, if_false,
          List.lookup, hak, if_pos hveq]
        apply lookup_none_of_keys
        intro kv hkv e
        have hmem : kv.1 ∈ t.map Prod.fst :=
          List.mem_map_of_mem Prod.fst (List.mem_of_mem_filter hkv)
        rw [e, hka] at hmem
        exact hn.1 hmem
    | false =>
      cases hkf : keepF (a, v) with
      | true =>
        simp only [List.filter_cons, hkf, if_true, List.lookup, hak]
        exact ih hn.2
      | false =>
        simp only [List.filter_cons, hkf, Bool.false_eq_true, if_false,
          List.lookup, hak]
        exact ih hn.2

theorem fpList_keys_nodup (c : RequestConfig) :
    ((fpList c).map Prod.fst).Nodup := by
  simp only [fpList, List.map_cons, List.map_nil]
  decide

theorem lookup_fpList_method (c : RequestConfig) :
    List.lookup "method".toList (fpList c)
      = some ((c.method.map Value.vstr).getD .vundef) := by
  simp only [fpList]
  rw [List.lookup,
    show (("method".toList : List Char) == "method".toList) = true by decide]

theorem lookup_fpList_url (c : RequestConfig) :
    List.lookup "url".toList (fpList c)
      = some ((c.url.map Value.vstr).getD .vundef) := by
  simp only [fpList]
  rw [List.lookup,
    show (("url".toList : List Char) == "method".toList) = false by decide,
    List.lookup,
    show (("url".toList : List Char) == "url".toList) = true by decide]

theorem lookup_fpList_params (c : RequestConfig) :
    List.lookup "params".toList (fpList c) = some c.params := by
  simp only [fpList]
  rw [List.lookup,
    show (("params".toList : List Char) == "method".toList) = false by decide,
    List.lookup,
    show (("params".toList : List Char) == "url".toList) = false by decide,
    List.lookup,
    show (("params".toList : List Char) == "params".toList) = true by decide]

theorem lookup_fpList_data (c : RequestConfig) :
    List.lookup "data".toList (fpList c) = some c.data := by
  simp only [fpList]
  rw [List.lookup,
    show (("data".toList : List Char) == "method".toList) = false by decide,
    List.lookup,
    show (("data".toList : List Char) == "url".toList) = false by decide,
    List.lookup,
    show (("data".toList : List Char) == "params".toList) = false by decide,
    List.lookup,
    show (("data".toList : List Char) == "data".toList) = true by decide]

theorem lookup_filter_fpList (c : RequestConfig) (k : List Char) (V : Value)
    (h : List.lookup k (fpList c) = some V) :
    List.lookup k ((fpList c).filter keepF)
      = if V = .vundef then none else some V := by
  rw [lookup_filter k _ (fpList_keys_nodup c), h]

theorem if_undef_inj {V1 V2 : Value}
    (h : (if V1 = .vundef then none else some V1)
       = (if V2 = .vundef then (none : Option Value) else some V2)) :
    V1 = V2 := by
  by_cases e1 : V1 = .vundef <;> by_cases e2 : V2 = .vundef
  · rw [e1, e2]
  · rw [if_pos e1, if_neg e2] at h
    exact absurd h (by simp)
  · rw [if_neg e1, if_pos e2] at h
    exact absurd h (by simp)
  · rw [if_neg e1, if_neg e2] at h
    injection h

theorem getD_vstr_inj {o1 o2 : Option (List Char)}
    (h : (o1.map Value.vstr).getD .vundef = (o2.map Value.vstr).getD .vundef) :
    o1 = o2 := by
  cases o1 with
  | none =>
    cases o2 with
    | none => rfl
    | some b => exact Value.noConfusion (h : Value.vundef = Value.vstr b)
  | some a =>
    cases o2 with
    | none => exact Value.noConfusion (h : Value.vstr a = Value.vundef)
    | some b =>
      have h2 : Value.vstr a = Value.vstr b := h
      injection h2 with h2
      rw [h2]

/-- Equal fingerprints force equal descriptor fields, for clean `params`
and `data`. -/
theorem getRequestId_fields {c1 c2 : RequestConfig}
    (h1p : presentClean c1.params = true) (h1d : presentClean c1.data = true)
    (h2p : presentClean c2.params = true) (h2d : presentClean c2.data = true)
    (h : getRequestId c1 = getRequestId c2) :
    c1.method = c2.method ∧ c1.url = c2.url
      ∧ c1.params = c2.params ∧ c1.data = c2.data := by
  have hs : stringifyV (fingerprintObj c1) = stringifyV (fingerprintObj c2) := by
    rw [stringify_fingerprintObj, stringify_fingerprintObj, h]
  rw [fingerprintObj, fingerprintObj, stringify_vobj_filter (fpList c1),
    stringify_vobj_filter (fpList c2)] at hs
  have hf1 : undefFree (Value.vobj ((fpList c1).filter keepF)) = true := by
    simp only [undefFree]
    exact undefFreeF_filter _ (fpList_clean c1 h1p h1d)
  have hf2 : undefFree (Value.vobj ((fpList c2).filter keepF)) = true := by
    simp only [undefFree]
    exact undefFreeF_filter _ (fpList_clean c2 h2p h2d)
  have hobj := stringify_inj hf1 hf2 hs
  have hl : (fpList c1).filter keepF = (fpList c2).filter keepF := by
    injection hobj
  refine ⟨?_, ?_, ?_, ?_⟩
  · have hlm := congrArg (List.lookup "method".toList) hl
    rw [lookup_filter_fpList c1 _ _ (lookup_fpList_method c1),
      lookup_filter_fpList c2 _ _ (lookup_fpList_method c2)] at hlm
    exact getD_vstr_inj (if_undef_inj hlm)
  · have hlu := congrArg (List.lookup "url".toList) hl
    rw [lookup_filter_fpList c1 _ _ (lookup_fpList_url c1),
      lookup_filter_fpList c2 _ _ (lookup_fpList_url c2)] at hlu
    exact getD_vstr_inj (if_undef_inj hlu)
  · have hlp := congrArg (List.lookup "params".toList) hl
    rw [lookup_filter_fpList c1 _ _ (lookup_fpList_params c1),
      lookup_filter_fpList c2 _ _ (lookup_fpList_params c2)] at hlp
    exact if_undef_inj hlp
  · have hld := congrArg (List.lookup "data".toList) hl
    rw [lookup_filter_fpList c1 _ _ (lookup_fpList_data c1),
      lookup_filter_fpList c2 _ _ (lookup_fpList_data c2)] at hld
    exact if_undef_inj hld

/-! ## Claim theorems -/

/-- C1, as stated, fails on the code: request A (the first dispatch of
`cfgGetItems`) is superseded by request B (the second dispatch, controller
1); the table then maps the shared fingerprint to B's controller 1 — yet
when A's transport call settles with the abort failure, the `catch` block's
unconditional `delete` (line 81) removes B's now-current entry, leaving the
fingerprint unmapped. -/
theorem settle_clobbers_superseding_entry :
    mapGet (dispatchStart (dispatchStart {}
        { method := some ('G' :: 'E' :: 'T' :: []), url := some ('/' :: 'i' :: []) }).1
        { method := some ('G' :: 'E' :: 'T' :: []), url := some ('/' :: 'i' :: []) }).1.table
      (getRequestId { method := some ('G' :: 'E' :: 'T' :: []), url := some ('/' :: 'i' :: []) })
      = some 1
    ∧ mapGet (settle (dispatchStart (dispatchStart {}
        { method := some ('G' :: 'E' :: 'T' :: []), url := some ('/' :: 'i' :: []) }).1
        { method := some ('G' :: 'E' :: 'T' :: []), url := some ('/' :: 'i' :: []) }).1
        (getRequestId { method := some ('G' :: 'E' :: 'T' :: []), url := some ('/' :: 'i' :: []) })
        (.failure abortErr)).1.table
      (getRequestId { method := some ('G' :: 'E' :: 'T' :: []), url := some ('/' :: 'i' :: []) })
      = none := by
  exact ⟨by decide, by decide⟩

/-- C1 amended: on settlement (success or failure), the table entry for the
request id is removed unconditionally — the `delete` on lines 69/81 is
keyed on the id alone and does not check whether the entry still holds this
dispatch's own controller — while entries under every other id are
untouched. -/
theorem settle_removes_entry_unconditionally (s : CState) (requestId : List Char)
    (o : Outcome) :
    mapGet ((settle s requestId o).1).table requestId = none
    ∧ ∀ k, k ≠ requestId →
        mapGet ((settle s requestId o).1).table k = mapGet s.table k := by
  cases o with
  | success resp =>
    exact ⟨mapGet_mapDelete_self s.table requestId,
           fun k hk => mapGet_mapDelete_ne s.table hk⟩
  | failure err =>
    exact ⟨mapGet_mapDelete_self s.table requestId,
           fun k hk => mapGet_mapDelete_ne s.table hk⟩

/-- C2, as stated, fails on the code: the two `params` objects hold the
same key–value pairs (one is a permutation of the other), so the
descriptors are structurally equal as maps, yet `getRequestId` — plain
`JSON.stringify`, which keeps insertion order — produces different
fingerprints. -/
theorem fingerprint_key_order_cex :
    List.Perm
      [(('a' :: []), Value.vnum 1), (('b' :: []), Value.vnum 2)]
      [(('b' :: []), Value.vnum 2), (('a' :: []), Value.vnum 1)]
    ∧ getRequestId { params := .vobj [(('a' :: []), Value.vnum 1), (('b' :: []), Value.vnum 2)] }
      ≠ getRequestId { params := .vobj [(('b' :: []), Value.vnum 2), (('a' :: []), Value.vnum 1)] } := by
  exact ⟨by decide, by decide⟩

/-- C2 amended: the fingerprint is a function of the four descriptor fields
as ordered structures — two configs whose `method`, `url`, `params` and
`data` are componentwise equal (same key insertion order inside `params`
and `data`) get equal fingerprints, whatever their other fields. -/
theorem fingerprint_of_ordered_fields (c1 c2 : RequestConfig)
    (hm : c1.method = c2.method) (hu : c1.url = c2.url)
    (hp : c1.params = c2.params) (hd : c1.data = c2.data) :
    getRequestId c1 = getRequestId c2 := by
  unfold getRequestId fingerprintObj fpList
  rw [hm, hu, hp, hd]

/-- Witness for `fingerprint_of_ordered_fields` at concrete configs that
differ only in `headers` and `timeout`. -/
theorem fingerprint_of_ordered_fields_witness :
    getRequestId { method := some ('G' :: 'E' :: 'T' :: []), headers := .vobj [] }
      = getRequestId { method := some ('G' :: 'E' :: 'T' :: []), timeout := some 5 } :=
  fingerprint_of_ordered_fields _ _ rfl rfl rfl rfl

/-- C3: a transport failure caused by the coordinator's cancellation signal
(the abort error) is rethrown with `isCanceled = true`; and among failures
whose error arrives without an `isCanceled` property (as transport errors
do), the rethrown error carries `isCanceled = true` exactly when the error
is named `AbortError`, i.e. exactly when the signal fired — which is what
distinguishes cancellation from every other transport failure. -/
theorem cancellation_error_flagged (s : CState) (requestId : List Char)
    (err : ErrInfo) (h : err.isCanceled = none) :
    (settle s requestId (.failure abortErr)).2
      = .error { name := "AbortError".toList, isCanceled := some true }
    ∧ ∀ e, (settle s requestId (.failure err)).2 = .error e →
        (e.isCanceled = some true ↔ err.name = "AbortError".toList) := by
  constructor
  · simp [settle, abortErr]
  · intro e he
    by_cases hn : err.name = "AbortError".toList
    · simp only [settle, if_pos hn, Except.error.injEq] at he
      subst he
      simpa using hn
    · simp only [settle, if_neg hn, Except.error.injEq] at he
      subst he
      refine ⟨fun hx => ?_, fun hx => absurd hx hn⟩
      rw [h] at hx
      exact Option.noConfusion hx

/-- Witness for `cancellation_error_flagged` at a concrete state and a
concrete transport error. -/
theorem cancellation_error_flagged_witness :
    (settle {} [] (.failure abortErr)).2
      = .error { name := "AbortError".toList, isCanceled := some true }
    ∧ ∀ e, (settle {} [] (.failure { name := ('x' :: []) })).2 = .error e →
        (e.isCanceled = some true ↔ ErrInfo.name { name := ('x' :: []) } = "AbortError".toList) :=
  cancellation_error_flagged {} [] { name := ('x' :: []) } rfl

/-- C4: the synchronous prefix of `request` (lines 44–60) — fingerprint
lookup, cancellation and removal of a previous entry, and registration of
the fresh controller — is a single transition of the model
(`Reachable.dispatch`), mirroring that the code runs it with no `await`
between lines 44 and 60, so no other dispatch observes an intermediate
state.  Its combined effect: any previously stored controller is aborted,
the table maps the fingerprint to the new controller, entries under every
other fingerprint are untouched, and exactly the superseded controller
(and nothing else) is newly aborted. -/
theorem dispatch_supersedes_atomically (s : CState) (cfg : RequestConfig) :
    (∀ old, mapGet s.table (getRequestId cfg) = some old →
        old ∈ (dispatchStart s cfg).1.aborted)
    ∧ mapGet (dispatchStart s cfg).1.table (getRequestId cfg)
        = some (dispatchStart s cfg).2
    ∧ (∀ k, k ≠ getRequestId cfg →
        mapGet (dispatchStart s cfg).1.table k = mapGet s.table k)
    ∧ (dispatchStart s cfg).1.aborted
        = s.aborted ++ (mapGet s.table (getRequestId cfg)).elim [] (fun c => [c]) := by
  cases hg : mapGet s.table (getRequestId cfg) with
  | none =>
    refine ⟨fun old h => by simp [hg] at h, ?_, ?_, ?_⟩
    · simp [dispatchStart, hg, mapGet_mapSet_self]
    · intro k hk
      simp [dispatchStart, hg, mapGet_mapSet_ne _ _ hk]
    · simp [dispatchStart, hg]
  | some old =>
    refine ⟨?_, ?_, ?_, ?_⟩
    · intro o ho
      have heq : old = o := Option.some.inj (hg ▸ ho)
      subst heq
      simp [dispatchStart, hg]
    · simp [dispatchStart, hg, mapGet_mapSet_self]
    · intro k hk
      simp [dispatchStart, hg, mapGet_mapSet_ne _ _ hk, mapGet_mapDelete_ne _ hk]
    · simp [dispatchStart, hg]

/-- C5: `cancelAllPendingRequests` aborts the controller of every entry in
the table — all N of them — and the table is empty immediately after the
call. -/
theorem cancelAll_aborts_everything_and_clears (s : CState) :
    (cancelAllPendingRequests s).table = []
    ∧ ∀ fp cid, (fp, cid) ∈ s.table →
        cid ∈ (cancelAllPendingRequests s).aborted := by
  constructor
  · rfl
  · intro fp cid hmem
    simp only [cancelAllPendingRequests, List.mem_append]
    right
    exact List.mem_map.mpr ⟨(fp, cid), hmem, rfl⟩

/-- C6: a transport failure not caused by the cancellation signal (its
error is not named `AbortError`) is rethrown to the caller as exactly the
original error object — `isCanceled` is left unset — and in both the
failure and the success case the dispatch delivers exactly one terminal
outcome after removing its table entry: `settle` is a total function whose
result is the propagated error, resp. the response payload. -/
theorem transport_error_propagated_unchanged (s : CState) (requestId : List Char)
    (err : ErrInfo) (resp : RespData) (h : err.name ≠ "AbortError".toList) :
    (settle s requestId (.failure err)).2 = .error err
    ∧ (settle s requestId (.success resp)).2 = .ok resp
    ∧ mapGet ((settle s requestId (.failure err)).1).table requestId = none
    ∧ mapGet ((settle s requestId (.success resp)).1).table requestId = none := by
  refine ⟨?_, rfl, ?_, ?_⟩
  · show Except.error
        (if ErrInfo.name err = "AbortError".toList
         then { err with isCanceled := some true } else err) = Except.error err
    rw [if_neg h]
  · exact mapGet_mapDelete_self s.table requestId
  · exact mapGet_mapDelete_self s.table requestId

/-- Witness for `transport_error_propagated_unchanged` on a concrete
network-style error. -/
theorem transport_error_propagated_unchanged_witness :
    (settle {} [] (.failure { name := ('x' :: []) })).2
      = .error { name := ('x' :: []) }
    ∧ (settle {} [] (.success { code := 200, message := [], data := .vnull })).2
      = .ok { code := 200, message := [], data := .vnull }
    ∧ mapGet ((settle {} [] (.failure { name := ('x' :: []) })).1).table [] = none
    ∧ mapGet ((settle {} [] (.success { code := 200, message := [], data := .vnull })).1).table []
      = none :=
  transport_error_propagated_unchanged {} [] { name := ('x' :: []) }
    { code := 200, message := [], data := .vnull } (by decide)

/-- C7: in every state reachable by dispatches, settlements and
`cancelAllPendingRequests` calls, the in-flight table's keys are pairwise
distinct: at most one entry per fingerprint at every observation point. -/
theorem table_has_at_most_one_entry_per_fingerprint {s : CState}
    (h : Reachable s) : (s.table.map Prod.fst).Nodup := by
  induction h with
  | init => exact List.nodup_nil
  | @dispatch s' cfg _ ih =>
    simp only [dispatchStart]
    cases hg : mapGet s'.table (getRequestId cfg) with
    | none =>
      simp only [hg]
      exact nodup_keys_mapSet _ _ ih
    | some old =>
      simp only [hg]
      exact nodup_keys_mapSet _ _ (nodup_keys_mapDelete _ ih)
  | settled requestId o _ ih =>
    cases o with
    | success resp => exact nodup_keys_mapDelete _ ih
    | failure err => exact nodup_keys_mapDelete _ ih
  | cancelAll _ _ => exact List.nodup_nil

/-- Witness for `table_has_at_most_one_entry_per_fingerprint` after two
overlapping dispatches from the initial state. -/
theorem table_has_at_most_one_entry_per_fingerprint_witness :
    (((dispatchStart (dispatchStart {} { url := some ('a' :: []) }).1
        { url := some ('b' :: []) }).1).table.map Prod.fst).Nodup :=
  table_has_at_most_one_entry_per_fingerprint
    (Reachable.dispatch _ (Reachable.dispatch _ Reachable.init))

/-- C8: two configs agreeing on `method`, `url`, `params` and `data` get
the same fingerprint whatever their `headers`, `timeout` or other fields
(`getRequestId` destructures only those four); and the argument handed to
`axios` is `{ ...config, signal }`, so every config field — in particular
`headers` and `timeout` — reaches the transport unchanged. -/
theorem fingerprint_excludes_forwarded_options (c1 c2 : RequestConfig) (cid : Nat)
    (hm : c1.method = c2.method) (hu : c1.url = c2.url)
    (hp : c1.params = c2.params) (hd : c1.data = c2.data) :
    getRequestId c1 = getRequestId c2
    ∧ (axiosArg c1 cid).headers = c1.headers
    ∧ (axiosArg c1 cid).timeout = c1.timeout
    ∧ (axiosArg c1 cid).method = c1.method
    ∧ (axiosArg c1 cid).url = c1.url
    ∧ (axiosArg c1 cid).params = c1.params
    ∧ (axiosArg c1 cid).data = c1.data := by
  refine ⟨?_, rfl, rfl, rfl, rfl, rfl, rfl⟩
  unfold getRequestId fingerprintObj fpList
  rw [hm, hu, hp, hd]

/-- Witness for `fingerprint_excludes_forwarded_options`: configs differing
only in `headers` and `timeout`. -/
theorem fingerprint_excludes_forwarded_options_witness :
    getRequestId { url := some ('u' :: []), headers := .vstr ('h' :: []) }
      = getRequestId { url := some ('u' :: []), timeout := some 9 }
    ∧ (axiosArg { url := some ('u' :: []), headers := .vstr ('h' :: []) } 3).headers
      = RequestConfig.headers { url := some ('u' :: []), headers := .vstr ('h' :: []) }
    ∧ (axiosArg { url := some ('u' :: []), headers := .vstr ('h' :: []) } 3).timeout
      = RequestConfig.timeout { url := some ('u' :: []), headers := .vstr ('h' :: []) }
    ∧ (axiosArg { url := some ('u' :: []), headers := .vstr ('h' :: []) } 3).method
      = RequestConfig.method { url := some ('u' :: []), headers := .vstr ('h' :: []) }
    ∧ (axiosArg { url := some ('u' :: []), headers := .vstr ('h' :: []) } 3).url
      = RequestConfig.url { url := some ('u' :: []), headers := .vstr ('h' :: []) }
    ∧ (axiosArg { url := some ('u' :: []), headers := .vstr ('h' :: []) } 3).params
      = RequestConfig.params { url := some ('u' :: []), headers := .vstr ('h' :: []) }
    ∧ (axiosArg { url := some ('u' :: []), headers := .vstr ('h' :: []) } 3).data
      = RequestConfig.data { url := some ('u' :: []), headers := .vstr ('h' :: []) } :=
  fingerprint_excludes_forwarded_options
    { url := some ('u' :: []), headers := .vstr ('h' :: []) }
    { url := some ('u' :: []), timeout := some 9 } 3 rfl rfl rfl rfl

/-- C10: each convenience wrapper writes its explicit `method`/`url` (and
`data` for `post`/`put`) after spreading the caller's config, so those
arguments override whatever the config held — e.g.
`get(url, { method: 'POST' })` still dispatches a GET to `url`. -/
theorem wrappers_override_config_fields (url : List Char) (data : Value)
    (cfg : Option RequestConfig) :
    (getCfg url cfg).method = some "GET".toList
    ∧ (getCfg url cfg).url = some url
    ∧ (postCfg url data cfg).method = some "POST".toList
    ∧ (postCfg url data cfg).url = some url
    ∧ (postCfg url data cfg).data = data
    ∧ (putCfg url data cfg).method = some "PUT".toList
    ∧ (putCfg url data cfg).url = some url
    ∧ (putCfg url data cfg).data = data
    ∧ (deleteCfg url cfg).method = some "DELETE".toList
    ∧ (deleteCfg url cfg).url = some url :=
  ⟨rfl, rfl, rfl, rfl, rfl, rfl, rfl, rfl, rfl, rfl⟩

/-- C9, as stated, fails on the code: the bodies `{ a: undefined }` and
`{}` are different values, yet `JSON.stringify` drops `undefined`-valued
members, so both descriptors fingerprint to `{"data":{}}`. -/
theorem fingerprint_collision_cex :
    RequestConfig.data { data := Value.vobj [(('a' :: []), Value.vundef)] }
      ≠ RequestConfig.data { data := Value.vobj [] }
    ∧ getRequestId { data := Value.vobj [(('a' :: []), Value.vundef)] }
      = getRequestId { data := Value.vobj [] } :=
  ⟨by decide, by decide⟩

/-- C9 amended: for descriptors whose `params` and `data` contain no
`undefined` inside (each field is absent or `undefined`-free), differing
in at least one of method, url, params, or data — as ordered structures —
forces distinct fingerprints: the serialization is injective on such
descriptors. -/
theorem fingerprint_injective_on_clean (c1 c2 : RequestConfig)
    (h1p : presentClean c1.params = true) (h1d : presentClean c1.data = true)
    (h2p : presentClean c2.params = true) (h2d : presentClean c2.data = true)
    (hne : c1.method ≠ c2.method ∨ c1.url ≠ c2.url
      ∨ c1.params ≠ c2.params ∨ c1.data ≠ c2.data) :
    getRequestId c1 ≠ getRequestId c2 := by
  intro h
  obtain ⟨hm, hu, hp, hd⟩ := getRequestId_fields h1p h1d h2p h2d h
  rcases hne with e | e | e | e
  exacts [e hm, e hu, e hp, e hd]

/-- Witness for `fingerprint_injective_on_clean`: two GET descriptors for
different urls get different fingerprints. -/
theorem fingerprint_injective_on_clean_witness :
    presentClean (RequestConfig.params { url := some ('a' :: []) }) = true
    ∧ RequestConfig.url { url := some ('a' :: []) }
        ≠ RequestConfig.url { url := some ('b' :: []) }
    ∧ getRequestId { url := some ('a' :: []) }
        ≠ getRequestId { url := some ('b' :: []) } :=
  ⟨by decide, by decide,
   fingerprint_injective_on_clean { url := some ('a' :: []) }
     { url := some ('b' :: []) } (by decide) (by decide) (by decide) (by decide)
     (Or.inr (Or.inl (by decide)))⟩

end HttpTs
